import Mathlib

/-!
Shallow embedding of `src/main.py` (lvm_defrag): the segment snapshot
builder, the defragmentation planner (`defrag`) and the tail
consolidation planner (`move_tail_pe`).

The Python functions obtain their input by shelling out to `pvs`; here
the parsed record list (and the extent size) are taken as arguments.
Issuing a `pvmove` and returning `True` is modelled by the result
constructor `PlanResult.move` carrying the request; returning `False`
after the "Attempt to move zero extents" warning is `PlanResult.zeroWarn`;
any other `False` return is `PlanResult.noAction`; a raised exception
(`RuntimeError`, `KeyError`, `AssertionError`) is `PlanResult.fatal`.
Python's `list.sort`/`sorted` are stable sorts; they are modelled by the
stable insertion sort `stableSort`, and `dict` insertion-order iteration
by association lists kept in first-insertion order.
-/

/-- One record of the `pvs --segments` report (the `Pvseg` dataclass). -/
structure Pvseg where
  vg_name : String
  lv_name : String
  pvseg_start : Nat
  seg_start_pe : Nat
  seg_size_pe : Nat
  segtype : String
deriving DecidableEq, Repr

instance : Inhabited Pvseg := ⟨⟨"", "", 0, 0, 0, ""⟩⟩

/-- Destination of a `pvmove` request: an explicit physical offset
(`pv_name:off+len`) or a destination chosen by the allocator
(`pv_name` alone, with `--alloc anywhere`). -/
inductive Dest where
  | toOffset (off : Nat)
  | anywhere
deriving DecidableEq, Repr

/-- A single `pvmove` relocation request: source start offset, length in
extents, destination, and whether `--atomic` was passed. -/
structure Move where
  src : Nat
  len : Nat
  dest : Dest
  atomic : Bool
deriving DecidableEq, Repr

/-- Observable outcome of one planner call. -/
inductive PlanResult where
  | move (m : Move)
  | noAction
  | zeroWarn
  | fatal (msg : String)
deriving DecidableEq, Repr

/-- Insert `a` into `l`, placing it after every element `b` with `le b a`.
Folding this over a list yields a stable sort. -/
def sortedInsert (le : α → α → Bool) (a : α) : List α → List α
  | [] => [a]
  | b :: l => if le b a then b :: sortedInsert le a l else a :: b :: l

/-- Stable sort by repeated insertion; models Python's stable
`list.sort` / `sorted`. -/
def stableSort (le : α → α → Bool) (l : List α) : List α :=
  l.foldl (fun acc x => sortedInsert le x acc) []

/-- The segment kinds the snapshot builder accepts; anything else raises
`RuntimeError(f'Unknown segment type ...')`. -/
def validSegtype (s : Pvseg) : Bool :=
  s.segtype == "free" || s.segtype == "linear"

/-- Grouping key `vg_name + '/' + lv_name`. -/
def groupKey (s : Pvseg) : String := s.vg_name ++ "/" ++ s.lv_name

/-- Append `s` to the group named `key`, creating the group at the end on
first appearance: `defaultdict(list)` with insertion-order iteration. -/
def insertGroup (key : String) (s : Pvseg) :
    List (String × List Pvseg) → List (String × List Pvseg)
  | [] => [(key, [s])]
  | (k, l) :: rest =>
      if k == key then (k, l ++ [s]) :: rest
      else (k, l) :: insertGroup key s rest

/-- Fold of the grouping loop over the report records. -/
def buildGroupsAux :
    List (String × List Pvseg) → List Pvseg → List (String × List Pvseg)
  | acc, [] => acc
  | acc, s :: rest =>
      buildGroupsAux
        (if s.segtype == "linear" then insertGroup (groupKey s) s acc else acc)
        rest

/-- `vg_lv_name2segments`: linear segments grouped by `vg/lv`, groups in
first-appearance order, segments in report order. -/
def buildGroups (segs : List Pvseg) : List (String × List Pvseg) :=
  buildGroupsAux [] segs

/-- The snapshot builder: fails on the first segment whose type is neither
`free` nor `linear`, otherwise yields the grouped linear segments.
(The offset map is modelled separately by `pvlookup`.) -/
def buildSnapshot (segs : List Pvseg) :
    Except String (List (String × List Pvseg)) :=
  match segs.find? (fun s => !validSegtype s) with
  | some s => .error ("Unknown segment type " ++ s.segtype ++ ".")
  | none => .ok (buildGroups segs)

/-- `pvoffset2seg[off]`: dict lookup where a later record with the same
`pvseg_start` overwrites an earlier one. -/
def pvlookup (segs : List Pvseg) (off : Nat) : Option Pvseg :=
  segs.reverse.find? (fun s => s.pvseg_start == off)

/-- Sort one group's segments by logical start (`seg_start_pe`),
stably. -/
def sortGroupSegs (g : String × List Pvseg) : String × List Pvseg :=
  (g.1, stableSort (fun a b => decide (a.seg_start_pe ≤ b.seg_start_pe)) g.2)

/-- The groups in the order `defrag` iterates them: each group sorted by
logical start, then the groups sorted by the physical offset of their
first (logically earliest) segment. -/
def defragGroups (segs : List Pvseg) : List (String × List Pvseg) :=
  stableSort
    (fun a b =>
      decide ((a.2.headD default).pvseg_start ≤ (b.2.headD default).pvseg_start))
    ((buildGroups segs).map sortGroupSegs)

/-- The flattened walk order of `defrag`'s nested loops. -/
def walkOrder (segs : List Pvseg) : List Pvseg :=
  ((defragGroups segs).map (fun g => g.2)).flatten

/-- The walk of `defrag`: advance past correctly placed segments, and on
the first misplaced one look up the blocker at the expected offset and
issue one request. -/
def defragWalk (segs : List Pvseg) : Nat → List Pvseg → PlanResult
  | _, [] => .noAction
  | expected, s :: rest =>
    if s.pvseg_start == expected then
      defragWalk segs (expected + s.seg_size_pe) rest
    else
      match pvlookup segs expected with
      | none => .fatal "KeyError"
      | some here =>
        if here.segtype == "free" then
          .move ⟨s.pvseg_start, min s.seg_size_pe here.seg_size_pe,
                 .toOffset here.pvseg_start, false⟩
        else if here.segtype == "linear" then
          .move ⟨here.pvseg_start, min s.seg_size_pe here.seg_size_pe,
                 .anywhere, false⟩
        else
          .fatal "RuntimeError"

/-- The defragmentation planner `defrag(pv_name)`, with the parsed report
as input. -/
def defrag (segs : List Pvseg) : PlanResult :=
  match segs.find? (fun s => !validSegtype s) with
  | some s => .fatal ("Unknown segment type " ++ s.segtype ++ ".")
  | none => defragWalk segs 0 (walkOrder segs)

/-- The `free` list of `move_tail_pe`, sorted by physical start. -/
def tailFree (segs : List Pvseg) : List Pvseg :=
  stableSort (fun a b => decide (a.pvseg_start ≤ b.pvseg_start))
    (segs.filter (fun s => s.segtype == "free"))

/-- The `used` list of `move_tail_pe`, sorted by physical start. -/
def tailUsed (segs : List Pvseg) : List Pvseg :=
  stableSort (fun a b => decide (a.pvseg_start ≤ b.pvseg_start))
    (segs.filter (fun s => s.segtype == "linear"))

/-- The tail consolidation planner `move_tail_pe(pv_name, required_bytes)`,
with the extent size and the parsed report as input. -/
def move_tail_pe (extent_size : Nat) (segs : List Pvseg)
    (required_bytes : Option Nat) : PlanResult :=
  if extent_size ≤ 4096 then .fatal "AssertionError: extent_size"
  else
    match segs.find? (fun s => !validSegtype s) with
    | some s => .fatal ("Unknown segment type " ++ s.segtype ++ ".")
    | none =>
      match (tailUsed segs).getLast?, (tailFree segs).head? with
      | none, _ => .noAction
      | some _, none => .noAction
      | some lastUsed, some firstFree =>
        if lastUsed.seg_start_pe < firstFree.seg_start_pe then
          if (tailFree segs).length == 1 then .noAction
          else .fatal "AssertionError: len(free) == 1"
        else
          let full := min firstFree.seg_size_pe lastUsed.seg_size_pe
          let to_move :=
            match required_bytes with
            | none => full
            | some rb => (min (full * extent_size) rb + extent_size - 1) / extent_size
          if to_move == 0 then .zeroWarn
          else
            .move ⟨lastUsed.pvseg_start + lastUsed.seg_size_pe - to_move,
                   to_move, .toOffset firstFree.pvseg_start, true⟩

/-- All segments of the walk start where the running expected offset
points: the fully packed check, relative to a starting offset. -/
def packedFrom : Nat → List Pvseg → Bool
  | _, [] => true
  | e, s :: l => s.pvseg_start == e && packedFrom (e + s.seg_size_pe) l

/-- Total size in extents of a list of segments. -/
def sumSizes (l : List Pvseg) : Nat := (l.map (fun s => s.seg_size_pe)).sum

/-- The list tiles the device from offset `e` up to `total`: consecutive
physical starts, positive sizes, ending exactly at `total`. -/
def tilesFrom (total : Nat) : Nat → List Pvseg → Bool
  | e, [] => e == total
  | e, s :: l =>
      s.pvseg_start == e && decide (0 < s.seg_size_pe) && tilesFrom total (e + s.seg_size_pe) l

/-- The snapshot partition invariant of the spec: the segments, sorted by
physical start, partition `[0, total)` with no gaps or overlaps. -/
def SnapshotValid (segs : List Pvseg) (total : Nat) : Bool :=
  tilesFrom total 0 (stableSort (fun a b => decide (a.pvseg_start ≤ b.pvseg_start)) segs)

/-! ### Lemmas about the stable sort -/

theorem sortedInsert_perm (le : α → α → Bool) (a : α) (l : List α) :
    (sortedInsert le a l).Perm (a :: l) := by
  induction l with
  | nil => exact List.Perm.refl _
  | cons b l ih =>
    simp only [sortedInsert]
    split
    · exact (ih.cons b).trans (List.Perm.swap a b l)
    · exact List.Perm.refl _

theorem stableSort_perm_aux (le : α → α → Bool) (l acc : List α) :
    (l.foldl (fun acc x => sortedInsert le x acc) acc).Perm (l ++ acc) := by
  induction l generalizing acc with
  | nil => simp
  | cons x l ih =>
    simp only [List.foldl_cons]
    exact (ih _).trans
      ((List.Perm.append_left l (sortedInsert_perm le x acc)).trans List.perm_middle)

theorem stableSort_perm (le : α → α → Bool) (l : List α) :
    (stableSort le l).Perm l := by
  simpa using stableSort_perm_aux le l []

theorem mem_stableSort (le : α → α → Bool) (a : α) (l : List α) :
    a ∈ stableSort le l ↔ a ∈ l :=
  (stableSort_perm le l).mem_iff

theorem pairwise_sortedInsert (le : α → α → Bool)
    (htot : ∀ a b, le a b = true ∨ le b a = true)
    (htrans : ∀ a b c, le a b = true → le b c = true → le a c = true)
    (x : α) (l : List α) (h : l.Pairwise (fun a b => le a b = true)) :
    (sortedInsert le x l).Pairwise (fun a b => le a b = true) := by
  induction l with
  | nil => simp [sortedInsert]
  | cons b l ih =>
    rcases List.pairwise_cons.mp h with ⟨hb, hl⟩
    simp only [sortedInsert]
    split
    · rename_i hbx
      refine List.pairwise_cons.mpr ⟨?_, ih hl⟩
      intro c hc
      rcases List.mem_cons.mp ((sortedInsert_perm le x l).mem_iff.mp hc) with rfl | hcl
      · exact hbx
      · exact hb c hcl
    · rename_i hbx
      have hxb : le x b = true := (htot x b).resolve_right (by simpa using hbx)
      refine List.pairwise_cons.mpr ⟨?_, h⟩
      intro c hc
      rcases List.mem_cons.mp hc with rfl | hcl
      · exact hxb
      · exact htrans x b c hxb (hb c hcl)

theorem pairwise_stableSort (le : α → α → Bool)
    (htot : ∀ a b, le a b = true ∨ le b a = true)
    (htrans : ∀ a b c, le a b = true → le b c = true → le a c = true)
    (l : List α) :
    (stableSort le l).Pairwise (fun a b => le a b = true) := by
  have key : ∀ (l acc : List α), acc.Pairwise (fun a b => le a b = true) →
      (l.foldl (fun acc x => sortedInsert le x acc) acc).Pairwise
        (fun a b => le a b = true) := by
    intro l
    induction l with
    | nil => intro acc h; exact h
    | cons x l ih =>
      intro acc h
      exact ih _ (pairwise_sortedInsert le htot htrans x acc h)
  exact key l [] List.Pairwise.nil

/-! ### The tail consolidation planner: shape of an issued move -/

theorem move_tail_pe_move_shape (es : Nat) (segs : List Pvseg) (rb : Option Nat)
    (m : Move) (lu ff : Pvseg)
    (hlu : (tailUsed segs).getLast? = some lu)
    (hff : (tailFree segs).head? = some ff)
    (hm : move_tail_pe es segs rb = .move m) :
    4096 < es ∧ ff.seg_start_pe ≤ lu.seg_start_pe ∧
    (rb = none → m.len = min ff.seg_size_pe lu.seg_size_pe) ∧
    (∀ b, rb = some b →
      m.len = (min (min ff.seg_size_pe lu.seg_size_pe * es) b + es - 1) / es) ∧
    m.len ≠ 0 ∧
    m.src = lu.pvseg_start + lu.seg_size_pe - m.len ∧
    m.dest = .toOffset ff.pvseg_start ∧ m.atomic = true := by
  unfold move_tail_pe at hm
  split at hm
  · exact absurd hm (by simp)
  rename_i hes
  split at hm
  · exact absurd hm (by simp)
  rw [hlu, hff] at hm
  simp only at hm
  split at hm
  · split at hm <;> exact absurd hm (by simp)
  rename_i hdeg
  split at hm
  · exact absurd hm (by simp)
  rename_i hto
  cases hm
  refine ⟨by omega, by omega, ?_, ?_, by simpa using hto, rfl, rfl, rfl⟩
  · intro h; subst h; rfl
  · intro b h; subst h; rfl

theorem ceil_le_of_le (es t0 rb : Nat) (hes : 0 < es) (h : rb ≤ t0 * es) :
    (rb + es - 1) / es ≤ t0 := by
  have hlt : (rb + es - 1) / es < t0 + 1 := by
    rw [Nat.div_lt_iff_lt_mul hes]
    have he : (t0 + 1) * es = t0 * es + es := by ring
    omega
  omega

theorem le_ceil_of_lt (es t0 rb : Nat) (hes : 0 < es) (h : t0 * es < rb) :
    t0 ≤ (rb + es - 1) / es := by
  rw [Nat.le_div_iff_mul_le hes]
  omega

theorem ceil_full (es t0 : Nat) (hes : 0 < es) :
    (t0 * es + es - 1) / es = t0 := by
  apply Nat.div_eq_of_lt_le
  · omega
  · have he : (t0 + 1) * es = t0 * es + es := by ring
    omega

theorem ceil_div_min (es t0 rb : Nat) (hes : 0 < es) :
    (min (t0 * es) rb + es - 1) / es = min t0 ((rb + es - 1) / es) := by
  rcases le_or_lt rb (t0 * es) with h | h
  · rw [min_eq_right h, min_eq_right (ceil_le_of_le es t0 rb hes h)]
  · rw [min_eq_left (le_of_lt h), ceil_full es t0 hes,
      min_eq_left (le_ceil_of_lt es t0 rb hes h)]

theorem ceil_div_bytes (es rb : Nat) (hes : 0 < es) :
    rb ≤ ((rb + es - 1) / es) * es ∧ ((rb + es - 1) / es) * es < rb + es := by
  have hmod := Nat.div_add_mod (rb + es - 1) es
  have hlt : (rb + es - 1) % es < es := Nat.mod_lt _ hes
  rw [Nat.mul_comm] at hmod
  generalize hq : (rb + es - 1) / es * es = K at *
  omega

/-- C3: when the tail consolidation planner issues a move under a byte
budget, the number of extents moved is the minimum of the full movable
amount `min(first_free.size, last_used.size)` and `ceil(budget / extent
size)`; in bytes the move is `≥` the budget and `<` budget plus one
extent, unless the full movable amount in bytes is below the budget, in
which case exactly the full amount is moved. -/
theorem claim_C3_tail_budget (es rb : Nat) (segs : List Pvseg) (m : Move)
    (lu ff : Pvseg)
    (hlu : (tailUsed segs).getLast? = some lu)
    (hff : (tailFree segs).head? = some ff)
    (hm : move_tail_pe es segs (some rb) = .move m) :
    m.len = min (min ff.seg_size_pe lu.seg_size_pe) ((rb + es - 1) / es) ∧
    (rb ≤ min ff.seg_size_pe lu.seg_size_pe * es →
      rb ≤ m.len * es ∧ m.len * es < rb + es) ∧
    (min ff.seg_size_pe lu.seg_size_pe * es < rb →
      m.len = min ff.seg_size_pe lu.seg_size_pe) := by
  obtain ⟨hes, -, -, hlen, -, -, -, -⟩ :=
    move_tail_pe_move_shape es segs (some rb) m lu ff hlu hff hm
  have hes0 : 0 < es := by omega
  have hlen' := hlen rb rfl
  refine ⟨?_, ?_, ?_⟩
  · rw [hlen']; exact ceil_div_min es _ rb hes0
  · intro hb
    rw [hlen', min_eq_right hb]
    exact ceil_div_bytes es rb hes0
  · intro hb
    rw [hlen', min_eq_left (le_of_lt hb), ceil_full es _ hes0]

/-- C5: whenever the tail consolidation planner issues a move, the single
request is atomic, its source is exactly the final `to_move` extents of
the last used segment, and its destination is the start of the first
free region; the planner reports a move was made. -/
theorem claim_C5_tail_move (es : Nat) (segs : List Pvseg) (rb : Option Nat)
    (m : Move) (lu ff : Pvseg)
    (hlu : (tailUsed segs).getLast? = some lu)
    (hff : (tailFree segs).head? = some ff)
    (hm : move_tail_pe es segs rb = .move m) :
    0 < m.len ∧ m.len ≤ lu.seg_size_pe ∧
    m.src = lu.pvseg_start + lu.seg_size_pe - m.len ∧
    m.src + m.len = lu.pvseg_start + lu.seg_size_pe ∧
    m.dest = .toOffset ff.pvseg_start ∧ m.atomic = true := by
  obtain ⟨hes, hdeg, hnone, hsome, hne, hsrc, hdest, hatomic⟩ :=
    move_tail_pe_move_shape es segs rb m lu ff hlu hff hm
  have hlen_le : m.len ≤ lu.seg_size_pe := by
    cases rb with
    | none => rw [hnone rfl]; exact min_le_right _ _
    | some b =>
      rw [hsome b rfl, ceil_div_min es _ b (by omega)]
      exact le_trans (min_le_left _ _) (min_le_right _ _)
  exact ⟨by omega, hlen_le, hsrc, by omega, hdest, hatomic⟩

theorem claim_C3_witness :
    (3 : Nat) = min (min 5 10) ((3000000 + 1048576 - 1) / 1048576) ∧
    ((3000000 : Nat) ≤ min 5 10 * 1048576 →
      (3000000 : Nat) ≤ 3 * 1048576 ∧ (3 * 1048576 : Nat) < 3000000 + 1048576) ∧
    ((min 5 10 * 1048576 : Nat) < 3000000 → (3 : Nat) = min 5 10) :=
  claim_C3_tail_budget 1048576 3000000
    [⟨"", "", 0, 0, 5, "free"⟩, ⟨"v", "a", 5, 0, 10, "linear"⟩]
    ⟨12, 3, .toOffset 0, true⟩ ⟨"v", "a", 5, 0, 10, "linear"⟩
    ⟨"", "", 0, 0, 5, "free"⟩ rfl rfl (by decide)

theorem claim_C5_witness :
    (0 : Nat) < 5 ∧ (5 : Nat) ≤ 10 ∧ (10 : Nat) = 5 + 10 - 5 ∧
    (10 + 5 : Nat) = 5 + 10 ∧ Dest.toOffset 0 = Dest.toOffset 0 ∧ true = true :=
  claim_C5_tail_move 1048576
    [⟨"", "", 0, 0, 5, "free"⟩, ⟨"v", "a", 5, 0, 10, "linear"⟩] none
    ⟨10, 5, .toOffset 0, true⟩ ⟨"v", "a", 5, 0, 10, "linear"⟩
    ⟨"", "", 0, 0, 5, "free"⟩ rfl rfl (by decide)

/-- C1 (code bug): on a device whose sole free region lies entirely after
all used segments the tail consolidation planner still issues a move —
line 179 of the source compares the logical starts (`seg_start_pe`)
instead of the physical starts, so the already-consolidated layout
`linear [0,10), free [10,15)` is not recognised and the last five used
extents are relocated into the free region that follows them. -/
theorem claim_C1_code_bug_eval :
    move_tail_pe 1048576 [⟨"vg", "a", 0, 0, 10, "linear"⟩, ⟨"", "", 10, 0, 5, "free"⟩] none
      = PlanResult.move ⟨5, 5, Dest.toOffset 10, true⟩ := by decide

/-- C2 is false as stated: a positive byte budget smaller than one extent
(here 1 byte against 1 MiB extents) is rounded up to one whole extent, so
the planner issues a one-extent move and reports success instead of
warning about a zero-length move and aborting. -/
theorem claim_C2_counterexample :
    move_tail_pe 1048576 [⟨"", "", 0, 0, 5, "free"⟩, ⟨"v", "a", 5, 0, 10, "linear"⟩] (some 1)
      = PlanResult.move ⟨14, 1, Dest.toOffset 0, true⟩ := by decide

/-- C2 (amended): with at least one linear and one free segment, past the
already-consolidated check, a supplied byte budget of zero resolves
`to_move` to zero extents; the planner reports the zero-length-move
warning and returns without issuing a relocation. -/
theorem claim_C2_zero_budget (es : Nat) (segs : List Pvseg) (lu ff : Pvseg)
    (hes : 4096 < es)
    (hval : ∀ s ∈ segs, validSegtype s = true)
    (hlu : (tailUsed segs).getLast? = some lu)
    (hff : (tailFree segs).head? = some ff)
    (hdeg : ff.seg_start_pe ≤ lu.seg_start_pe) :
    move_tail_pe es segs (some 0) = .zeroWarn := by
  unfold move_tail_pe
  rw [if_neg (by omega)]
  have hfind : segs.find? (fun s => !validSegtype s) = none := by
    rw [List.find?_eq_none]
    intro s hs
    simp [hval s hs]
  rw [hfind, hlu, hff]
  simp only
  rw [if_neg (by omega)]
  have hz : (es - 1) / es = 0 := Nat.div_eq_of_lt (by omega)
  simp [hz]

theorem claim_C2_amended_witness :
    move_tail_pe 1048576 [⟨"", "", 0, 0, 5, "free"⟩, ⟨"v", "a", 5, 0, 10, "linear"⟩] (some 0)
      = PlanResult.zeroWarn :=
  claim_C2_zero_budget 1048576
    [⟨"", "", 0, 0, 5, "free"⟩, ⟨"v", "a", 5, 0, 10, "linear"⟩]
    ⟨"v", "a", 5, 0, 10, "linear"⟩ ⟨"", "", 0, 0, 5, "free"⟩
    (by decide) (by decide) rfl rfl (by decide)

/-! ### The defragmentation planner -/

theorem defragWalk_packed (segs : List Pvseg) (e : Nat) (l : List Pvseg)
    (h : packedFrom e l = true) : defragWalk segs e l = .noAction := by
  induction l generalizing e with
  | nil => rfl
  | cons s rest ih =>
    simp only [packedFrom, Bool.and_eq_true] at h
    simp only [defragWalk, h.1, if_true]
    exact ih _ h.2

theorem defragWalk_append (segs : List Pvseg) (e : Nat) (pre l : List Pvseg)
    (h : packedFrom e pre = true) :
    defragWalk segs e (pre ++ l) = defragWalk segs (e + sumSizes pre) l := by
  induction pre generalizing e with
  | nil => simp [sumSizes]
  | cons s rest ih =>
    simp only [packedFrom, Bool.and_eq_true] at h
    simp only [List.cons_append, defragWalk, h.1, if_true, List.append_eq]
    rw [ih _ h.2]
    simp [sumSizes, Nat.add_assoc]

theorem find?_valid_none (segs : List Pvseg)
    (hval : ∀ s ∈ segs, validSegtype s = true) :
    segs.find? (fun s => !validSegtype s) = none := by
  rw [List.find?_eq_none]
  intro s hs
  simp [hval s hs]

/-- C7: on a snapshot whose walk order is fully packed — every successive
segment's physical start equals the running expected offset — the
defragmentation planner issues no relocation and reports that nothing is
left to do. -/
theorem claim_C7_idempotent (segs : List Pvseg)
    (hval : ∀ s ∈ segs, validSegtype s = true)
    (hpacked : packedFrom 0 (walkOrder segs) = true) :
    defrag segs = .noAction := by
  unfold defrag
  rw [find?_valid_none segs hval]
  exact defragWalk_packed segs 0 (walkOrder segs) hpacked

theorem claim_C7_witness :
    defrag [⟨"v", "A", 0, 0, 10, "linear"⟩, ⟨"", "", 10, 0, 5, "free"⟩]
      = PlanResult.noAction :=
  claim_C7_idempotent
    [⟨"v", "A", 0, 0, 10, "linear"⟩, ⟨"", "", 10, 0, 5, "free"⟩]
    (by decide) (by decide)

/-- C4: the defragmentation planner acts on the first misplaced segment in
walk order; with `here` the segment occupying the expected offset it
moves `min(misplaced.size, here.size)` extents — the leading extents of
the misplaced segment into `here`'s start when `here` is free, or the
leading extents of `here` to an allocator-chosen destination when `here`
is linear — and in both cases reports that a move was made. -/
theorem claim_C4_first_misplaced (segs pre post : List Pvseg) (s here : Pvseg)
    (hval : ∀ t ∈ segs, validSegtype t = true)
    (hwalk : walkOrder segs = pre ++ s :: post)
    (hpre : packedFrom 0 pre = true)
    (hmis : s.pvseg_start ≠ sumSizes pre)
    (hhere : pvlookup segs (sumSizes pre) = some here) :
    (here.segtype = "free" →
      defrag segs = .move ⟨s.pvseg_start, min s.seg_size_pe here.seg_size_pe,
        .toOffset here.pvseg_start, false⟩) ∧
    (here.segtype = "linear" →
      defrag segs = .move ⟨here.pvseg_start, min s.seg_size_pe here.seg_size_pe,
        .anywhere, false⟩) := by
  have hw : defrag segs = defragWalk segs (0 + sumSizes pre) (s :: post) := by
    unfold defrag
    rw [find?_valid_none segs hval, hwalk]
    exact defragWalk_append segs 0 pre _ hpre
  rw [Nat.zero_add] at hw
  constructor
  · intro hfree
    rw [hw]
    simp only [defragWalk]
    rw [if_neg (by simpa using hmis), hhere]
    simp [hfree]
  · intro hlin
    rw [hw]
    simp only [defragWalk]
    rw [if_neg (by simpa using hmis), hhere]
    simp [hlin]

theorem claim_C4_witness :
    ("free" = "free" →
      defrag [⟨"", "", 0, 0, 10, "free"⟩, ⟨"v", "A", 10, 0, 10, "linear"⟩]
        = PlanResult.move ⟨10, min 10 10, Dest.toOffset 0, false⟩) ∧
    ("free" = "linear" →
      defrag [⟨"", "", 0, 0, 10, "free"⟩, ⟨"v", "A", 10, 0, 10, "linear"⟩]
        = PlanResult.move ⟨0, min 10 10, Dest.anywhere, false⟩) :=
  claim_C4_first_misplaced
    [⟨"", "", 0, 0, 10, "free"⟩, ⟨"v", "A", 10, 0, 10, "linear"⟩]
    [] [] ⟨"v", "A", 10, 0, 10, "linear"⟩ ⟨"", "", 0, 0, 10, "free"⟩
    (by decide) (by decide) (by decide) (by decide) (by decide)

/-- C6: an input containing a segment whose type is neither `free` nor
`linear` makes both planners fail with the fatal error naming the unknown
type before any relocation request is issued. -/
theorem claim_C6_unknown_segtype (segs : List Pvseg) (s : Pvseg) (es : Nat)
    (rb : Option Nat) (hmem : s ∈ segs) (hbad : validSegtype s = false)
    (hes : 4096 < es) :
    ∃ bad, bad ∈ segs ∧ validSegtype bad = false ∧
      defrag segs = .fatal ("Unknown segment type " ++ bad.segtype ++ ".") ∧
      move_tail_pe es segs rb
        = .fatal ("Unknown segment type " ++ bad.segtype ++ ".") := by
  have hne : segs.find? (fun t => !validSegtype t) ≠ none := by
    intro h
    rw [List.find?_eq_none] at h
    exact absurd (h s hmem) (by simp [hbad])
  obtain ⟨bad, hfind⟩ := Option.ne_none_iff_exists'.mp hne
  refine ⟨bad, List.mem_of_find?_eq_some hfind, ?_, ?_, ?_⟩
  · simpa using List.find?_some hfind
  · unfold defrag
    rw [hfind]
  · unfold move_tail_pe
    rw [if_neg (by omega), hfind]

theorem claim_C6_witness :
    ∃ bad, bad ∈ [(⟨"v", "a", 0, 0, 5, "linear"⟩ : Pvseg), ⟨"v", "a", 5, 0, 5, "raid1"⟩] ∧
      validSegtype bad = false ∧
      defrag [(⟨"v", "a", 0, 0, 5, "linear"⟩ : Pvseg), ⟨"v", "a", 5, 0, 5, "raid1"⟩]
        = .fatal ("Unknown segment type " ++ bad.segtype ++ ".") ∧
      move_tail_pe 1048576
        [(⟨"v", "a", 0, 0, 5, "linear"⟩ : Pvseg), ⟨"v", "a", 5, 0, 5, "raid1"⟩] none
        = .fatal ("Unknown segment type " ++ bad.segtype ++ ".") :=
  claim_C6_unknown_segtype
    [⟨"v", "a", 0, 0, 5, "linear"⟩, ⟨"v", "a", 5, 0, 5, "raid1"⟩]
    ⟨"v", "a", 5, 0, 5, "raid1"⟩ 1048576 none
    (by decide) (by decide) (by decide)

/-! ### Structure of the walk order (grouping and sorting) -/

/-- Invariant of the grouped linear segments: groups are nonempty and
every member carries the group's key and is linear. -/
def GroupInv (acc : List (String × List Pvseg)) : Prop :=
  ∀ g ∈ acc, g.2 ≠ [] ∧ ∀ t ∈ g.2, groupKey t = g.1 ∧ t.segtype = "linear"

theorem groupInv_tail (a : String × List Pvseg) (acc : List (String × List Pvseg))
    (h : GroupInv (a :: acc)) : GroupInv acc :=
  fun g hg => h g (List.mem_cons_of_mem a hg)

theorem insertGroup_inv (s : Pvseg) (acc : List (String × List Pvseg))
    (hs : s.segtype = "linear") (hacc : GroupInv acc) :
    GroupInv (insertGroup (groupKey s) s acc) := by
  induction acc with
  | nil =>
    intro g hg
    simp only [insertGroup, List.mem_singleton] at hg
    subst hg
    exact ⟨by simp, by intro t ht; simp only [List.mem_singleton] at ht; subst ht; exact ⟨rfl, hs⟩⟩
  | cons a acc ih =>
    obtain ⟨k, l⟩ := a
    intro g hg
    simp only [insertGroup] at hg
    split at hg
    · rename_i hk
      rcases List.mem_cons.mp hg with rfl | hgacc
      · have hhead := hacc (k, l) (List.mem_cons_self _ _)
        refine ⟨by simp, ?_⟩
        intro t ht
        rcases List.mem_append.mp ht with h | h
        · exact hhead.2 t h
        · simp only [List.mem_singleton] at h
          subst h
          exact ⟨(beq_iff_eq.mp hk).symm, hs⟩
      · exact hacc g (List.mem_cons_of_mem _ hgacc)
    · rcases List.mem_cons.mp hg with rfl | hgrest
      · exact hacc (k, l) (List.mem_cons_self _ _)
      · exact ih (groupInv_tail _ _ hacc) g hgrest

theorem buildGroupsAux_inv (segs : List Pvseg) (acc : List (String × List Pvseg))
    (hacc : GroupInv acc) : GroupInv (buildGroupsAux acc segs) := by
  induction segs generalizing acc with
  | nil => exact hacc
  | cons s rest ih =>
    simp only [buildGroupsAux]
    split
    · rename_i hlin
      exact ih _ (insertGroup_inv s acc (by simpa using hlin) hacc)
    · exact ih _ hacc

theorem buildGroups_inv (segs : List Pvseg) : GroupInv (buildGroups segs) :=
  buildGroupsAux_inv segs [] (fun g hg => absurd hg (List.not_mem_nil g))

theorem defragGroups_inv (segs : List Pvseg) : GroupInv (defragGroups segs) := by
  intro g hg
  have hg' := (mem_stableSort _ _ _).mp hg
  rcases List.mem_map.mp hg' with ⟨g0, hg0, rfl⟩
  have h0 := buildGroups_inv segs g0 hg0
  constructor
  · simp only [sortGroupSegs]
    intro hnil
    have hp := stableSort_perm
      (fun a b : Pvseg => decide (a.seg_start_pe ≤ b.seg_start_pe)) g0.2
    rw [hnil] at hp
    exact h0.1 hp.symm.eq_nil
  · intro t ht
    have htm : t ∈ g0.2 := (mem_stableSort _ _ _).mp ht
    exact h0.2 t htm

theorem head_min_of_pairwise (l : List Pvseg) (hne : l ≠ [])
    (hp : l.Pairwise (fun a b => a.seg_start_pe ≤ b.seg_start_pe)) :
    l.headD default ∈ l ∧ ∀ t ∈ l, (l.headD default).seg_start_pe ≤ t.seg_start_pe := by
  cases l with
  | nil => exact absurd rfl hne
  | cons a l =>
    refine ⟨List.mem_cons_self _ _, ?_⟩
    intro t ht
    rcases List.mem_cons.mp ht with rfl | h
    · exact Nat.le_refl _
    · exact (List.pairwise_cons.mp hp).1 t h

/-- C8: the defragmentation planner visits logical volumes in ascending
order of the physical start of each volume's logically first segment, and
within one volume walks that volume's linear segments in ascending order
of logical start. -/
theorem claim_C8_walk_order (segs : List Pvseg) :
    (defragGroups segs).Pairwise
      (fun g h => (g.2.headD default).pvseg_start ≤ (h.2.headD default).pvseg_start) ∧
    ∀ g ∈ defragGroups segs,
      g.2 ≠ [] ∧
      g.2.Pairwise (fun a b => a.seg_start_pe ≤ b.seg_start_pe) ∧
      (g.2.headD default ∈ g.2 ∧
        ∀ t ∈ g.2, (g.2.headD default).seg_start_pe ≤ t.seg_start_pe) ∧
      ∀ t ∈ g.2, groupKey t = g.1 ∧ t.segtype = "linear" := by
  constructor
  · have hp := pairwise_stableSort
      (fun a b : String × List Pvseg =>
        decide ((a.2.headD default).pvseg_start ≤ (b.2.headD default).pvseg_start))
      (fun a b => by
        rcases Nat.le_total (a.2.headD default).pvseg_start (b.2.headD default).pvseg_start with h | h
        · exact Or.inl (decide_eq_true h)
        · exact Or.inr (decide_eq_true h))
      (fun a b c hab hbc =>
        decide_eq_true (Nat.le_trans (of_decide_eq_true hab) (of_decide_eq_true hbc)))
      ((buildGroups segs).map sortGroupSegs)
    exact hp.imp (fun h => of_decide_eq_true h)
  · intro g hg
    have hinv := defragGroups_inv segs g hg
    have hg' := (mem_stableSort _ _ _).mp hg
    rcases List.mem_map.mp hg' with ⟨g0, hg0, rfl⟩
    have hpair : (sortGroupSegs g0).2.Pairwise
        (fun a b => a.seg_start_pe ≤ b.seg_start_pe) := by
      have hp := pairwise_stableSort
        (fun a b : Pvseg => decide (a.seg_start_pe ≤ b.seg_start_pe))
        (fun a b => by
          rcases Nat.le_total a.seg_start_pe b.seg_start_pe with h | h
          · exact Or.inl (decide_eq_true h)
          · exact Or.inr (decide_eq_true h))
        (fun a b c hab hbc =>
          decide_eq_true (Nat.le_trans (of_decide_eq_true hab) (of_decide_eq_true hbc)))
        g0.2
      exact hp.imp (fun h => of_decide_eq_true h)
    exact ⟨hinv.1, hpair, head_min_of_pairwise _ hinv.1 hpair, hinv.2⟩

theorem claim_C8_witness :
    (defragGroups [⟨"v", "A", 5, 0, 5, "linear"⟩, ⟨"", "", 0, 0, 5, "free"⟩,
      ⟨"w", "B", 10, 0, 5, "linear"⟩]).Pairwise
      (fun g h => (g.2.headD default).pvseg_start ≤ (h.2.headD default).pvseg_start) :=
  (claim_C8_walk_order
    [⟨"v", "A", 5, 0, 5, "linear"⟩, ⟨"", "", 0, 0, 5, "free"⟩,
      ⟨"w", "B", 10, 0, 5, "linear"⟩]).1

/-! ### The snapshot builder accepts any input made of known segment types -/

/-- C9 is false as stated: the snapshot builder performs no partition
validation. The two linear segments of this input overlap (`[0,5)` and
`[3,8)`), so they partition no extent range, yet the build succeeds. -/
theorem claim_C9_counterexample :
    (buildSnapshot [⟨"v", "a", 0, 0, 5, "linear"⟩, ⟨"v", "b", 3, 0, 5, "linear"⟩]).isOk
      = true ∧
    SnapshotValid [⟨"v", "a", 0, 0, 5, "linear"⟩, ⟨"v", "b", 3, 0, 5, "linear"⟩] 8
      = false := by
  decide

/-- C9 (amended): the builder rejects exactly the inputs containing a
segment of unknown type; whether the segments partition the device is
never checked, so snapshots with gaps or overlaps are built
successfully. -/
theorem claim_C9_amended (segs : List Pvseg) :
    (buildSnapshot segs).isOk = true ↔ ∀ s ∈ segs, validSegtype s = true := by
  unfold buildSnapshot
  cases hfind : segs.find? (fun s => !validSegtype s) with
  | some t =>
    constructor
    · intro h
      exact Bool.noConfusion h
    · intro h
      have hp := List.find?_some hfind
      have hmem := List.mem_of_find?_eq_some hfind
      exact absurd (h t hmem) (by simpa using hp)
  | none =>
    constructor
    · intro _ s hs
      rw [List.find?_eq_none] at hfind
      simpa using hfind s hs
    · intro _
      rfl

theorem claim_C9_amended_witness :
    (buildSnapshot [⟨"v", "a", 5, 0, 5, "linear"⟩]).isOk = true :=
  (claim_C9_amended [⟨"v", "a", 5, 0, 5, "linear"⟩]).mpr (by decide)

/-! ### The partition invariant and safety of the blocker lookup -/

theorem sumSizes_cons (s : Pvseg) (l : List Pvseg) :
    sumSizes (s :: l) = s.seg_size_pe + sumSizes l := by
  simp [sumSizes]

theorem sumSizes_perm (l1 l2 : List Pvseg) (h : l1.Perm l2) :
    sumSizes l1 = sumSizes l2 := by
  unfold sumSizes
  exact (h.map (fun s => s.seg_size_pe)).sum_eq

theorem sumSizes_filter_le (p : Pvseg → Bool) (l : List Pvseg) :
    sumSizes (l.filter p) ≤ sumSizes l := by
  induction l with
  | nil => exact Nat.le_refl _
  | cons s l ih =>
    rw [List.filter_cons]
    by_cases h : p s = true
    · rw [if_pos h, sumSizes_cons, sumSizes_cons]
      omega
    · rw [if_neg h, sumSizes_cons]
      omega

theorem tilesFrom_mem_facts (total e : Nat) (l : List Pvseg)
    (h : tilesFrom total e l = true) :
    ∀ s ∈ l, 0 < s.seg_size_pe ∧
      (s.pvseg_start + s.seg_size_pe = total ∨
        ∃ t ∈ l, t.pvseg_start = s.pvseg_start + s.seg_size_pe) := by
  induction l generalizing e with
  | nil => intro s hs; cases hs
  | cons a l ih =>
    simp only [tilesFrom, Bool.and_eq_true, beq_iff_eq, decide_eq_true_eq] at h
    obtain ⟨⟨hstart, hpos⟩, htiles⟩ := h
    intro s hs
    rcases List.mem_cons.mp hs with rfl | hsl
    · refine ⟨hpos, ?_⟩
      cases l with
      | nil =>
        left
        simp only [tilesFrom, beq_iff_eq] at htiles
        rw [hstart]
        exact htiles
      | cons b l' =>
        right
        simp only [tilesFrom, Bool.and_eq_true, beq_iff_eq] at htiles
        refine ⟨b, List.mem_cons_of_mem _ (List.mem_cons_self _ _), ?_⟩
        rw [hstart]
        exact htiles.1.1
    · have hf := ih _ htiles s hsl
      refine ⟨hf.1, hf.2.imp id ?_⟩
      rintro ⟨t, ht, he⟩
      exact ⟨t, List.mem_cons_of_mem _ ht, he⟩

theorem tilesFrom_sum (total e : Nat) (l : List Pvseg)
    (h : tilesFrom total e l = true) : e + sumSizes l = total := by
  induction l generalizing e with
  | nil =>
    simp only [tilesFrom, beq_iff_eq] at h
    simpa [sumSizes] using h
  | cons a l ih =>
    simp only [tilesFrom, Bool.and_eq_true, beq_iff_eq, decide_eq_true_eq] at h
    have hrec := ih _ h.2
    rw [sumSizes_cons]
    omega

theorem snapshotValid_facts (segs : List Pvseg) (total : Nat)
    (h : SnapshotValid segs total = true) :
    (∀ s ∈ segs, 0 < s.seg_size_pe ∧
      (s.pvseg_start + s.seg_size_pe = total ∨
        ∃ t ∈ segs, t.pvseg_start = s.pvseg_start + s.seg_size_pe)) ∧
    sumSizes segs = total ∧
    (0 < total → ∃ t ∈ segs, t.pvseg_start = 0) := by
  unfold SnapshotValid at h
  have hperm := stableSort_perm
    (fun a b : Pvseg => decide (a.pvseg_start ≤ b.pvseg_start)) segs
  refine ⟨?_, ?_, ?_⟩
  · intro s hs
    have hs' := hperm.mem_iff.mpr hs
    have hf := tilesFrom_mem_facts total 0 _ h s hs'
    refine ⟨hf.1, hf.2.imp id ?_⟩
    rintro ⟨t, ht, he⟩
    exact ⟨t, hperm.mem_iff.mp ht, he⟩
  · have hsum := tilesFrom_sum total 0 _ h
    have heq := sumSizes_perm _ _ hperm
    omega
  · intro hpos
    cases hss : stableSort (fun a b : Pvseg => decide (a.pvseg_start ≤ b.pvseg_start)) segs with
    | nil =>
      rw [hss] at h
      simp only [tilesFrom, beq_iff_eq] at h
      omega
    | cons a l =>
      rw [hss] at h
      simp only [tilesFrom, Bool.and_eq_true, beq_iff_eq] at h
      refine ⟨a, hperm.mem_iff.mp ?_, h.1.1⟩
      rw [hss]
      exact List.mem_cons_self _ _

theorem pvlookup_some_of_mem (segs : List Pvseg) (e : Nat)
    (h : ∃ t ∈ segs, t.pvseg_start = e) :
    ∃ here, pvlookup segs e = some here ∧ here ∈ segs := by
  unfold pvlookup
  cases hfind : segs.reverse.find? (fun s => s.pvseg_start == e) with
  | none =>
    rw [List.find?_eq_none] at hfind
    obtain ⟨t, ht, he⟩ := h
    have := hfind t (List.mem_reverse.mpr ht)
    simp [he] at this
  | some here =>
    exact ⟨here, rfl, List.mem_reverse.mp (List.mem_of_find?_eq_some hfind)⟩

theorem flatten_sortGroups_perm (G : List (String × List Pvseg)) :
    ((G.map sortGroupSegs).map (fun g => g.2)).flatten.Perm
      ((G.map (fun g => g.2)).flatten) := by
  induction G with
  | nil => exact List.Perm.refl _
  | cons g G ih =>
    simp only [List.map_cons, List.flatten_cons]
    exact (stableSort_perm _ g.2).append ih

theorem insertGroup_flatten_perm (key : String) (s : Pvseg)
    (acc : List (String × List Pvseg)) :
    ((insertGroup key s acc).map (fun g => g.2)).flatten.Perm
      ((acc.map (fun g => g.2)).flatten ++ [s]) := by
  induction acc with
  | nil => simp [insertGroup]
  | cons a acc ih =>
    obtain ⟨k, l⟩ := a
    simp only [insertGroup]
    split
    · simp only [List.map_cons, List.flatten_cons, List.append_assoc]
      exact List.Perm.append_left l List.perm_append_comm
    · simp only [List.map_cons, List.flatten_cons, List.append_assoc]
      exact List.Perm.append_left l ih

theorem buildGroupsAux_flatten_perm (segs : List Pvseg)
    (acc : List (String × List Pvseg)) :
    ((buildGroupsAux acc segs).map (fun g => g.2)).flatten.Perm
      ((acc.map (fun g => g.2)).flatten ++ segs.filter (fun s => s.segtype == "linear")) := by
  induction segs generalizing acc with
  | nil => simp [buildGroupsAux]
  | cons s rest ih =>
    simp only [buildGroupsAux, List.filter_cons]
    by_cases h : (s.segtype == "linear") = true
    · rw [if_pos h, if_pos h]
      refine (ih _).trans ?_
      refine ((insertGroup_flatten_perm (groupKey s) s acc).append_right _).trans ?_
      simp [List.append_assoc]
    · rw [if_neg h, if_neg h]
      exact ih acc

theorem walkOrder_perm (segs : List Pvseg) :
    (walkOrder segs).Perm (segs.filter (fun s => s.segtype == "linear")) := by
  unfold walkOrder defragGroups
  have h1 : (((stableSort
      (fun a b : String × List Pvseg =>
        decide ((a.2.headD default).pvseg_start ≤ (b.2.headD default).pvseg_start))
      ((buildGroups segs).map sortGroupSegs)).map (fun g => g.2)).flatten).Perm
      ((((buildGroups segs).map sortGroupSegs).map (fun g => g.2)).flatten) := by
    rw [← List.flatMap_def, ← List.flatMap_def]
    exact (stableSort_perm _ _).flatMap_right _
  refine (h1.trans (flatten_sortGroups_perm (buildGroups segs))).trans ?_
  simpa using buildGroupsAux_flatten_perm segs []

theorem walkOrder_mem (segs : List Pvseg) (t : Pvseg) (ht : t ∈ walkOrder segs) :
    t ∈ segs :=
  (List.mem_filter.mp ((walkOrder_perm segs).mem_iff.mp ht)).1

theorem defragWalk_no_fatal (segs : List Pvseg) (total : Nat)
    (hvt : ∀ s ∈ segs, validSegtype s = true)
    (hval : SnapshotValid segs total = true) :
    ∀ (l : List Pvseg) (e : Nat), (∀ s ∈ l, s ∈ segs) →
      e + sumSizes l ≤ total →
      (e = total ∨ ∃ t ∈ segs, t.pvseg_start = e) →
      defragWalk segs e l = .noAction ∨ ∃ m, defragWalk segs e l = .move m := by
  obtain ⟨hfacts, -, -⟩ := snapshotValid_facts segs total hval
  intro l
  induction l with
  | nil =>
    intro e _ _ _
    left
    rfl
  | cons s rest ih =>
    intro e hsub hsum hbound
    have hs : s ∈ segs := hsub s (List.mem_cons_self _ _)
    have hf := hfacts s hs
    rw [sumSizes_cons] at hsum
    by_cases hplaced : (s.pvseg_start == e) = true
    · simp only [defragWalk, hplaced, if_true]
      apply ih
      · intro t ht
        exact hsub t (List.mem_cons_of_mem _ ht)
      · omega
      · have heq : s.pvseg_start = e := by simpa using hplaced
        rcases hf.2 with hend | hex
        · left
          omega
        · right
          obtain ⟨t, ht, hte⟩ := hex
          exact ⟨t, ht, by omega⟩
    · have hlt : e < total := by
        have hpos := hf.1
        omega
      have hb : ∃ t ∈ segs, t.pvseg_start = e := by
        rcases hbound with rfl | hb
        · omega
        · exact hb
      obtain ⟨here, hlook, hmem⟩ := pvlookup_some_of_mem segs e hb
      right
      have hvtt : (here.segtype == "free" || here.segtype == "linear") = true :=
        hvt here hmem
      by_cases hfree : (here.segtype == "free") = true
      · refine ⟨⟨s.pvseg_start, min s.seg_size_pe here.seg_size_pe,
          .toOffset here.pvseg_start, false⟩, ?_⟩
        simp only [defragWalk]
        rw [if_neg hplaced, hlook]
        simp [hfree]
      · have hfree' : (here.segtype == "free") = false := by
          simpa using hfree
        rw [hfree', Bool.false_or] at hvtt
        refine ⟨⟨here.pvseg_start, min s.seg_size_pe here.seg_size_pe,
          .anywhere, false⟩, ?_⟩
        simp only [defragWalk]
        rw [if_neg hplaced, hlook]
        simp [hfree', hvtt]

/-- C10: under the snapshot partition invariant the blocker lookup at the
expected offset always succeeds and the blocker is of known kind, so the
defragmentation planner never fails: it either reports no action or
issues a move. -/
theorem claim_C10_lookup_safe (segs : List Pvseg) (total : Nat)
    (hvt : ∀ s ∈ segs, validSegtype s = true)
    (hval : SnapshotValid segs total = true) :
    defrag segs = .noAction ∨ ∃ m, defrag segs = .move m := by
  unfold defrag
  rw [find?_valid_none segs hvt]
  obtain ⟨-, hsum_eq, hzero⟩ := snapshotValid_facts segs total hval
  apply defragWalk_no_fatal segs total hvt hval
  · exact fun s hs => walkOrder_mem segs s hs
  · have h1 := sumSizes_perm _ _ (walkOrder_perm segs)
    have h2 := sumSizes_filter_le (fun s => s.segtype == "linear") segs
    omega
  · rcases Nat.eq_zero_or_pos total with rfl | hpos
    · left
      rfl
    · right
      exact hzero hpos

theorem claim_C10_witness :
    defrag [⟨"", "", 0, 0, 10, "free"⟩, ⟨"v", "A", 10, 0, 10, "linear"⟩]
        = PlanResult.noAction ∨
      ∃ m, defrag [⟨"", "", 0, 0, 10, "free"⟩, ⟨"v", "A", 10, 0, 10, "linear"⟩]
        = PlanResult.move m :=
  claim_C10_lookup_safe
    [⟨"", "", 0, 0, 10, "free"⟩, ⟨"v", "A", 10, 0, 10, "linear"⟩] 20
    (by decide) (by decide)
